import Mathlib

/-!
Shallow embedding of the chat client's micro-markup renderer
(`formatMessageText` and its inner helpers `escapeHtml` and
`applyInlineFormatting` in `static/script.js`).

Strings are modelled as lists of `RChar`: a character together with a
provenance flag.  `gen = true` marks characters emitted by the renderer's
own template literals (the generated tags), `gen = false` marks characters
derived from the untrusted input text.  Every operation of the source
inspects only the character component, so erasing the flag recovers the
JavaScript behaviour character for character; the flag exists solely so
that injection safety ("every angle bracket of the output belongs to a
generated tag") is directly statable.

The four regular-expression substitution passes of
`applyInlineFormatting` are embedded as explicit scanners implementing
the exact JavaScript `String.replace` semantics of the four patterns
(leftmost match, lazy `(.+?)` for bold and italic, greedy character
classes for inline code and autolink, scanning resuming after each
replacement).  Fuel arguments make termination structural; the fuel
supplied by the wrappers (`length + 1`) is never exhausted.
-/

/-- A rendered character: the character itself plus a provenance flag
(`gen = true` iff the character was emitted by one of the renderer's
template literals rather than drawn from the input text). -/
structure RChar where
  ch : Char
  gen : Bool
deriving DecidableEq, Repr

/-- Characters of a renderer template literal (flagged as generated). -/
def gens (s : String) : List RChar := s.data.map (fun c => ⟨c, true⟩)

/-- Characters of the untrusted input text (flagged as not generated). -/
def inputChars (s : String) : List RChar := s.data.map (fun c => ⟨c, false⟩)

/-- Forget provenance, recovering the plain string. -/
def eraseProv (l : List RChar) : String := String.mk (l.map RChar.ch)

/-- JavaScript's whitespace class: the characters matched by `\s` and
trimmed by `trim` / `trimEnd` (ASCII whitespace, NBSP, Unicode spaces,
line and paragraph separators, BOM). -/
def jsWhite (c : Char) : Bool :=
  c = ' ' || c = '\t' || c = '\n' || c = '\r' ||
  c.val = 11 || c.val = 12 || c.val = 0xa0 || c.val = 0x1680 ||
  (0x2000 ≤ c.val && c.val ≤ 0x200a) ||
  c.val = 0x2028 || c.val = 0x2029 || c.val = 0x202f ||
  c.val = 0x205f || c.val = 0x3000 || c.val = 0xfeff

/-- Apply a character-to-fragment substitution to every character in
order, concatenating the results (the shape of a global single-character
regex replacement such as `.replace(/&/g, ...)`). -/
def expandWith (f : RChar → List RChar) : List RChar → List RChar
  | [] => []
  | c :: cs => f c ++ expandWith f cs

/-- The characters of entity text `s`, inheriting the provenance of the
character `c` they replace. -/
def entityFor (c : RChar) (s : String) : List RChar :=
  s.data.map (fun d => ⟨d, c.gen⟩)

/-- Substitution of `.replace(/&/g, '&amp;')` (source line 148). -/
def ampSub (c : RChar) : List RChar :=
  if c.ch = '&' then entityFor c "&amp;" else [c]

/-- Substitution of `.replace(/</g, '&lt;')` (source line 149). -/
def ltSub (c : RChar) : List RChar :=
  if c.ch = '<' then entityFor c "&lt;" else [c]

/-- Substitution of `.replace(/>/g, '&gt;')` (source line 150). -/
def gtSub (c : RChar) : List RChar :=
  if c.ch = '>' then entityFor c "&gt;" else [c]

/-- `escapeHtml` (source lines 147-150): replace every `&` first, then
every `<`, then every `>`, by their entities. -/
def escapeHtml (l : List RChar) : List RChar :=
  expandWith gtSub (expandWith ltSub (expandWith ampSub l))

/-- Single-pass characterisation of the Escaper: what each individual
character becomes under the three sequential substitutions. -/
def escapeCharSpec (c : RChar) : List RChar :=
  if c.ch = '&' then entityFor c "&amp;"
  else if c.ch = '<' then entityFor c "&lt;"
  else if c.ch = '>' then entityFor c "&gt;"
  else [c]

/-- String-level Escaper (erasing provenance). -/
def escapeHtmlS (s : String) : String := eraseProv (escapeHtml (inputChars s))

/-! ### The four inline substitution passes (source lines 152-159) -/

/-- Do two asterisks stand at the head of the list (the delimiter of the
bold pattern)? -/
def twoStars : List RChar → Bool
  | a :: b :: _ => a.ch = '*' && b.ch = '*'
  | _ => false

/-- Does a single asterisk stand at the head of the list? -/
def oneStar : List RChar → Bool
  | a :: _ => a.ch = '*'
  | _ => false

/-- Does a backtick stand at the head of the list? -/
def oneTick : List RChar → Bool
  | a :: _ => a.ch = '\x60'
  | _ => false

/-- Lazy search for the closing `**` of `/\*\*(.+?)\*\*/`:
`acc` holds the capture so far; at least one captured character is
required, captured characters may not be newlines, and the match closes
at the earliest position where two asterisks follow the capture. -/
def boldClose : Nat → List RChar → List RChar → Option (List RChar × List RChar)
  | 0, _, _ => none
  | _ + 1, _, [] => none
  | f + 1, acc, c :: rest =>
    if c.ch = '\n' then none
    else if twoStars rest then some (acc ++ [c], rest.drop 2)
    else boldClose f (acc ++ [c]) rest

/-- Try to match `/\*\*(.+?)\*\*/` at the head of the list, returning
the capture and the remainder after the match. -/
def boldAt (l : List RChar) : Option (List RChar × List RChar) :=
  if twoStars l then boldClose ((l.drop 2).length + 1) [] (l.drop 2)
  else none

/-- Global replacement `processed.replace(/\*\*(.+?)\*\*/g,
'<strong>$1</strong>')` (source line 154). -/
def boldPass : Nat → List RChar → List RChar
  | 0, l => l
  | _ + 1, [] => []
  | f + 1, c :: cs =>
    match boldAt (c :: cs) with
    | some (cap, rest) =>
      gens "<strong>" ++ cap ++ gens "</strong>" ++ boldPass f rest
    | none => c :: boldPass f cs

/-- Lazy search for the closing `*` of `/\*(.+?)\*/`. -/
def italClose : Nat → List RChar → List RChar → Option (List RChar × List RChar)
  | 0, _, _ => none
  | _ + 1, _, [] => none
  | f + 1, acc, c :: rest =>
    if c.ch = '\n' then none
    else if oneStar rest then some (acc ++ [c], rest.drop 1)
    else italClose f (acc ++ [c]) rest

/-- Try to match `/\*(.+?)\*/` at the head of the list. -/
def italAt (l : List RChar) : Option (List RChar × List RChar) :=
  if oneStar l then italClose ((l.drop 1).length + 1) [] (l.drop 1)
  else none

/-- Global replacement `processed.replace(/\*(.+?)\*/g, '<em>$1</em>')`
(source line 155). -/
def italPass : Nat → List RChar → List RChar
  | 0, l => l
  | _ + 1, [] => []
  | f + 1, c :: cs =>
    match italAt (c :: cs) with
    | some (cap, rest) =>
      gens "<em>" ++ cap ++ gens "</em>" ++ italPass f rest
    | none => c :: italPass f cs

/-- Search for the closing backtick of ``/`([^`]+)`/``: take the run of
non-backtick characters after the opening backtick; the match succeeds
iff the run is non-empty and a backtick follows it. -/
def codeClose : Nat → List RChar → List RChar → Option (List RChar × List RChar)
  | 0, _, _ => none
  | _ + 1, _, [] => none
  | f + 1, acc, c :: rest =>
    if c.ch = '\x60' then (if acc = [] then none else some (acc, rest))
    else codeClose f (acc ++ [c]) rest

/-- Try to match ``/`([^`]+)`/`` at the head of the list. -/
def codeAt (l : List RChar) : Option (List RChar × List RChar) :=
  if oneTick l then codeClose ((l.drop 1).length + 1) [] (l.drop 1)
  else none

/-- Global replacement ``processed.replace(/`([^`]+)`/g,
'<code>$1</code>')`` (source line 156). -/
def codePass : Nat → List RChar → List RChar
  | 0, l => l
  | _ + 1, [] => []
  | f + 1, c :: cs =>
    match codeAt (c :: cs) with
    | some (cap, rest) =>
      gens "<code>" ++ cap ++ gens "</code>" ++ codePass f rest
    | none => c :: codePass f cs

/-- A character admissible in the autolink body: the class `[^\s<]`. -/
def urlChar (c : Char) : Bool := !jsWhite c && c ≠ '<'

/-- Greedy `[^\s<]+`: split off the maximal run of admissible characters. -/
def takeUrl : List RChar → List RChar × List RChar
  | [] => ([], [])
  | c :: cs =>
    if urlChar c.ch then (c :: (takeUrl cs).1, (takeUrl cs).2)
    else ([], c :: cs)

/-- Does the list of rendered characters begin with the given plain
characters? If so return the remainder. -/
def leadsWith : List Char → List RChar → Option (List RChar)
  | [], l => some l
  | _ :: _, [] => none
  | p :: ps, c :: cs => if c.ch = p then leadsWith ps cs else none

/-- After a scheme of `n` characters, require a non-empty greedy run of
`[^\s<]` characters; the capture is the scheme together with the run. -/
def urlFrom (l : List RChar) (n : Nat) : Option (List RChar × List RChar) :=
  if (takeUrl (l.drop n)).1 = [] then none
  else some (l.take n ++ (takeUrl (l.drop n)).1, (takeUrl (l.drop n)).2)

/-- Try to match `/(https?:\/\/[^\s<]+)/` at the head of the list: a
literal scheme, then a non-empty greedy run of `[^\s<]` characters; the
capture is the whole match. -/
def urlAt (l : List RChar) : Option (List RChar × List RChar) :=
  if (leadsWith "http://".data l).isSome then urlFrom l 7
  else if (leadsWith "https://".data l).isSome then urlFrom l 8
  else none

/-- Global replacement `processed.replace(/(https?:\/\/[^\s<]+)/g,
'<a href="$1" target="_blank">$1</a>')` (source line 157); note the
capture appears twice in the template. -/
def urlPass : Nat → List RChar → List RChar
  | 0, l => l
  | _ + 1, [] => []
  | f + 1, c :: cs =>
    match urlAt (c :: cs) with
    | some (cap, rest) =>
      gens "<a href=\"" ++ cap ++ gens "\" target=\"_blank\">" ++ cap ++
        gens "</a>" ++ urlPass f rest
    | none => c :: urlPass f cs

/-- `applyInlineFormatting` (source lines 152-159): escape, then the
bold, italic, inline-code and autolink substitutions in that order. -/
def applyInlineFormatting (l : List RChar) : List RChar :=
  let e := escapeHtml l
  let b := boldPass (e.length + 1) e
  let i := italPass (b.length + 1) b
  let c := codePass (i.length + 1) i
  urlPass (c.length + 1) c

/-- String-level inline formatter (erasing provenance). -/
def applyInlineFormattingS (s : String) : String :=
  eraseProv (applyInlineFormatting (inputChars s))

/-! ### The line-oriented block pass (source lines 161-243) -/

/-- The two list kinds (`'ul'` / `'ol'` in the source). -/
inductive ListKind
  | ul
  | ol
deriving DecidableEq, Repr

/-- The tag name interpolated into the list template; `none` would be
interpolated by JavaScript as the text `null` (unreachable in fact). -/
def listTag : Option ListKind → String
  | some ListKind.ul => "ul"
  | some ListKind.ol => "ol"
  | none => "null"

/-- The mutable locals of `formatMessageText`: the accumulated markup,
the open list buffer and its kind, the code-fence flag and the buffered
raw code lines. -/
structure FmtState where
  html : List RChar
  listBuffer : List (List RChar)
  listType : Option ListKind
  inCodeBlock : Bool
  codeBuffer : List (List RChar)
deriving DecidableEq, Repr

/-- The state at the top of the loop (source lines 162-166). -/
def startState : FmtState := ⟨[], [], none, false, []⟩

/-- `flushList` (source lines 168-174): if the list buffer is non-empty,
append the buffered items wrapped in the list tag and clear buffer and
kind. -/
def flushList (st : FmtState) : FmtState :=
  if st.listBuffer = [] then st
  else
    { st with
      html := st.html ++ gens ("<" ++ listTag st.listType ++ ">") ++
        st.listBuffer.flatten ++ gens ("</" ++ listTag st.listType ++ ">"),
      listBuffer := [],
      listType := none }

/-- `flushCode` (source lines 176-181): if the code buffer is non-empty,
append the buffered raw lines joined by a newline, escaped once, wrapped
in the code-block tags, and clear the buffer. -/
def flushCode (st : FmtState) : FmtState :=
  if st.codeBuffer = [] then st
  else
    { st with
      html := st.html ++ gens "<pre><code>" ++
        escapeHtml (List.intercalate [⟨'\n', false⟩] st.codeBuffer) ++
        gens "</code></pre>",
      codeBuffer := [] }

/-- `trimEnd` on a line of rendered characters. -/
def trimEndR (l : List RChar) : List RChar :=
  (l.reverse.dropWhile (fun c => jsWhite c.ch)).reverse

/-- `trim` on a line of rendered characters. -/
def trimR (l : List RChar) : List RChar :=
  (l.dropWhile (fun c => jsWhite c.ch)).reverse.dropWhile
    (fun c => jsWhite c.ch) |>.reverse

/-- `line.startsWith('```')` (source line 186). -/
def fence (l : List RChar) : Bool :=
  match l with
  | a :: b :: c :: _ => a.ch = '\x60' && b.ch = '\x60' && c.ch = '\x60'
  | _ => false

/-- `!line.trim()` (source line 202): the line is empty or all
whitespace. -/
def isBlank (l : List RChar) : Bool := l.all (fun c => jsWhite c.ch)

/-- Length of the longest run of characters satisfying `p` at the head. -/
def countLeading (p : Char → Bool) : List RChar → Nat
  | [] => 0
  | c :: cs => if p c.ch then countLeading p cs + 1 else 0

/-- `line.match(/^(#{1,4})\s+(.*)/)` (source line 208): between one and
four leading hashes (a fifth hash defeats all backtracking choices),
then at least one whitespace character, capturing the hash count and the
text after the whitespace run. -/
def headingMatch (l : List RChar) : Option (Nat × List RChar) :=
  let r := countLeading (fun c => c = '#') l
  if 1 ≤ r && r ≤ 4 then
    match l.drop r with
    | c :: rest =>
      if jsWhite c.ch then some (r, rest.dropWhile (fun d => jsWhite d.ch))
      else none
    | [] => none
  else none

/-- The character class of the bullet pattern at source line 216.  The
source file's bytes spell `[-*â€¢]` — a mojibake of the bullet glyph —
so the class contains `-`, `*`, U+00E2, U+20AC and U+00A2. -/
def isBulletChar (c : Char) : Bool :=
  c = '-' || c = '*' || c = 'â' || c = '€' || c = '¢'

/-- `line.match(/^[-*â€¢]\s+(.*)/)` (source line 216). -/
def bulletMatch (l : List RChar) : Option (List RChar) :=
  match l with
  | c :: d :: rest =>
    if isBulletChar c.ch && jsWhite d.ch then
      some (rest.dropWhile (fun e => jsWhite e.ch))
    else none
  | _ => none

/-- `line.match(/^\d+\.\s+(.*)/)` (source line 226). -/
def orderedMatch (l : List RChar) : Option (List RChar) :=
  let r := countLeading (fun c => c.isDigit) l
  if r = 0 then none
  else
    match l.drop r with
    | c :: d :: rest =>
      if c.ch = '.' && jsWhite d.ch then
        some (rest.dropWhile (fun e => jsWhite e.ch))
      else none
    | _ => none

/-- One iteration of the `for (let rawLine of lines)` loop (source lines
183-238), with the rules in the source's order: fence toggle, in-code
accumulation, blank line, heading, unordered bullet, ordered bullet,
paragraph fallback. -/
def processLine (st : FmtState) (rawLine : List RChar) : FmtState :=
  let line := trimEndR rawLine
  if fence line = true then
    if st.inCodeBlock then { flushCode st with inCodeBlock := false }
    else { flushList st with inCodeBlock := true }
  else if st.inCodeBlock then
    { st with codeBuffer := st.codeBuffer ++ [rawLine] }
  else if isBlank line = true then
    let st1 := flushList st
    { st1 with html := st1.html ++ gens "<br>" }
  else
    match headingMatch line with
    | some (r, content) =>
      let st1 := flushList st
      let level := min (r + 2) 5
      { st1 with
        html := st1.html ++ gens ("<h" ++ toString level ++ ">") ++
          applyInlineFormatting content ++ gens ("</h" ++ toString level ++ ">") }
    | none =>
      match bulletMatch line with
      | some content =>
        let st1 :=
          if st.listType ≠ some ListKind.ul then
            { flushList st with listType := some ListKind.ul }
          else st
        { st1 with
          listBuffer := st1.listBuffer ++
            [gens "<li>" ++ applyInlineFormatting content ++ gens "</li>"] }
      | none =>
        match orderedMatch line with
        | some content =>
          let st1 :=
            if st.listType ≠ some ListKind.ol then
              { flushList st with listType := some ListKind.ol }
            else st
          { st1 with
            listBuffer := st1.listBuffer ++
              [gens "<li>" ++ applyInlineFormatting content ++ gens "</li>"] }
        | none =>
          let st1 := flushList st
          { st1 with
            html := st1.html ++ gens "<p>" ++ applyInlineFormatting line ++
              gens "</p>" }

/-- `text.split('\n')` (source line 161): JavaScript split, so the empty
string yields one empty line and a trailing newline yields a trailing
empty line. -/
def splitOnNl : List RChar → List (List RChar)
  | [] => [[]]
  | c :: cs =>
    if c.ch = '\n' then [] :: splitOnNl cs
    else
      match splitOnNl cs with
      | [] => [[c]]
      | l :: ls => (c :: l) :: ls

/-- `formatMessageText` over rendered characters (source lines 146-243):
run the loop over all lines, flush the open list and code buffers, and
fall back to the inline-formatted whole text when no block markup was
produced. -/
def formatR (text : List RChar) : List RChar :=
  let st := (splitOnNl text).foldl processLine startState
  let st1 := flushCode (flushList st)
  if st1.html = [] then applyInlineFormatting text else st1.html

/-- `formatMessageText` as a plain string function: feed the input with
input provenance and erase provenance from the result. -/
def formatMessageText (s : String) : String :=
  eraseProv (formatR (inputChars s))

/-! ### Basic lemmas about provenance and the Escaper -/

theorem mem_gens {c : RChar} {s : String} (h : c ∈ gens s) : c.gen = true := by
  simp only [gens, List.mem_map] at h
  obtain ⟨e, _, rfl⟩ := h
  rfl

theorem mem_entityFor {c d : RChar} {s : String} (h : c ∈ entityFor d s) :
    c.ch ∈ s.data := by
  simp only [entityFor, List.mem_map] at h
  obtain ⟨e, he, rfl⟩ := h
  exact he

theorem mem_expandWith {f : RChar → List RChar} {c : RChar} :
    ∀ {l : List RChar}, c ∈ expandWith f l ↔ ∃ d ∈ l, c ∈ f d := by
  intro l
  induction l with
  | nil => simp [expandWith]
  | cons d ds ih => simp [expandWith, ih]

theorem expandWith_append (f : RChar → List RChar) (a b : List RChar) :
    expandWith f (a ++ b) = expandWith f a ++ expandWith f b := by
  induction a with
  | nil => simp [expandWith]
  | cons c cs ih => simp [expandWith, ih]

theorem escComp (c : RChar) :
    expandWith gtSub (expandWith ltSub (ampSub c)) = escapeCharSpec c := by
  obtain ⟨ch, g⟩ := c
  by_cases h1 : ch = '&'
  · subst h1; cases g <;> rfl
  · by_cases h2 : ch = '<'
    · subst h2; cases g <;> rfl
    · by_cases h3 : ch = '>'
      · subst h3; cases g <;> rfl
      · simp [ampSub, ltSub, gtSub, escapeCharSpec, expandWith, h1, h2, h3]

theorem escapeHtml_cons (c : RChar) (cs : List RChar) :
    escapeHtml (c :: cs) = escapeCharSpec c ++ escapeHtml cs := by
  show expandWith gtSub (expandWith ltSub (expandWith ampSub (c :: cs))) = _
  rw [show expandWith ampSub (c :: cs) = ampSub c ++ expandWith ampSub cs from rfl,
    expandWith_append, expandWith_append, escComp]
  rfl

theorem escapeHtml_eq : ∀ l : List RChar, escapeHtml l = expandWith escapeCharSpec l := by
  intro l
  induction l with
  | nil => rfl
  | cons c cs ih => rw [escapeHtml_cons, ih]; rfl

theorem escapeCharSpec_no_angle {c d : RChar} (h : c ∈ escapeCharSpec d) :
    c.ch ≠ '<' ∧ c.ch ≠ '>' := by
  unfold escapeCharSpec at h
  split at h
  · have hm := mem_entityFor h
    refine ⟨fun e => ?_, fun e => ?_⟩ <;> rw [e] at hm <;> revert hm <;> decide
  · split at h
    · have hm := mem_entityFor h
      refine ⟨fun e => ?_, fun e => ?_⟩ <;> rw [e] at hm <;> revert hm <;> decide
    · split at h
      · have hm := mem_entityFor h
        refine ⟨fun e => ?_, fun e => ?_⟩ <;> rw [e] at hm <;> revert hm <;> decide
      · rw [List.mem_singleton] at h
        subst h
        exact ⟨by assumption, by assumption⟩

theorem escapeHtml_no_angle {l : List RChar} {c : RChar} (h : c ∈ escapeHtml l) :
    c.ch ≠ '<' ∧ c.ch ≠ '>' := by
  rw [escapeHtml_eq] at h
  rcases mem_expandWith.1 h with ⟨d, _, hd⟩
  exact escapeCharSpec_no_angle hd

/-! ### Provenance of the inline passes: every output character either
comes from the input list or was generated by a template literal. -/

theorem boldClose_sub :
    ∀ (fuel : Nat) (acc l cap rest : List RChar),
      boldClose fuel acc l = some (cap, rest) →
      (∀ c, c ∈ cap → c ∈ acc ∨ c ∈ l) ∧ (∀ c, c ∈ rest → c ∈ l) := by
  intro fuel
  induction fuel with
  | zero => intro acc l cap rest h; simp [boldClose] at h
  | succ f ih =>
    intro acc l cap rest h
    match l with
    | [] => simp [boldClose] at h
    | c :: tl =>
      rw [boldClose] at h
      by_cases hnl : c.ch = '\n'
      · rw [if_pos hnl] at h; cases h
      · rw [if_neg hnl] at h
        by_cases hts : twoStars tl = true
        · rw [if_pos hts] at h
          injection h with h
          injection h with h1 h2
          subst h1; subst h2
          constructor
          · intro x hx
            rcases List.mem_append.1 hx with hx | hx
            · exact Or.inl hx
            · rw [List.mem_singleton] at hx; subst hx
              exact Or.inr (List.mem_cons_self _ _)
          · intro x hx
            exact List.mem_cons_of_mem _ (List.mem_of_mem_drop hx)
        · rw [if_neg hts] at h
          obtain ⟨h1, h2⟩ := ih (acc ++ [c]) tl cap rest h
          constructor
          · intro x hx
            rcases h1 x hx with hx | hx
            · rcases List.mem_append.1 hx with hx | hx
              · exact Or.inl hx
              · rw [List.mem_singleton] at hx; subst hx
                exact Or.inr (List.mem_cons_self _ _)
            · exact Or.inr (List.mem_cons_of_mem _ hx)
          · intro x hx
            exact List.mem_cons_of_mem _ (h2 x hx)

theorem italClose_sub :
    ∀ (fuel : Nat) (acc l cap rest : List RChar),
      italClose fuel acc l = some (cap, rest) →
      (∀ c, c ∈ cap → c ∈ acc ∨ c ∈ l) ∧ (∀ c, c ∈ rest → c ∈ l) := by
  intro fuel
  induction fuel with
  | zero => intro acc l cap rest h; simp [italClose] at h
  | succ f ih =>
    intro acc l cap rest h
    match l with
    | [] => simp [italClose] at h
    | c :: tl =>
      rw [italClose] at h
      by_cases hnl : c.ch = '\n'
      · rw [if_pos hnl] at h; cases h
      · rw [if_neg hnl] at h
        by_cases hts : oneStar tl = true
        · rw [if_pos hts] at h
          injection h with h
          injection h with h1 h2
          subst h1; subst h2
          constructor
          · intro x hx
            rcases List.mem_append.1 hx with hx | hx
            · exact Or.inl hx
            · rw [List.mem_singleton] at hx; subst hx
              exact Or.inr (List.mem_cons_self _ _)
          · intro x hx
            exact List.mem_cons_of_mem _ (List.mem_of_mem_drop hx)
        · rw [if_neg hts] at h
          obtain ⟨h1, h2⟩ := ih (acc ++ [c]) tl cap rest h
          constructor
          · intro x hx
            rcases h1 x hx with hx | hx
            · rcases List.mem_append.1 hx with hx | hx
              · exact Or.inl hx
              · rw [List.mem_singleton] at hx; subst hx
                exact Or.inr (List.mem_cons_self _ _)
            · exact Or.inr (List.mem_cons_of_mem _ hx)
          · intro x hx
            exact List.mem_cons_of_mem _ (h2 x hx)

theorem codeClose_sub :
    ∀ (fuel : Nat) (acc l cap rest : List RChar),
      codeClose fuel acc l = some (cap, rest) →
      (∀ c, c ∈ cap → c ∈ acc ∨ c ∈ l) ∧ (∀ c, c ∈ rest → c ∈ l) := by
  intro fuel
  induction fuel with
  | zero => intro acc l cap rest h; simp [codeClose] at h
  | succ f ih =>
    intro acc l cap rest h
    match l with
    | [] => simp [codeClose] at h
    | c :: tl =>
      rw [codeClose] at h
      by_cases htk : c.ch = '\x60'
      · rw [if_pos htk] at h
        by_cases hac : acc = []
        · rw [if_pos hac] at h; cases h
        · rw [if_neg hac] at h
          injection h with h
          injection h with h1 h2
          subst h1; subst h2
          exact ⟨fun x hx => Or.inl hx, fun x hx => List.mem_cons_of_mem _ hx⟩
      · rw [if_neg htk] at h
        obtain ⟨h1, h2⟩ := ih (acc ++ [c]) tl cap rest h
        constructor
        · intro x hx
          rcases h1 x hx with hx | hx
          · rcases List.mem_append.1 hx with hx | hx
            · exact Or.inl hx
            · rw [List.mem_singleton] at hx; subst hx
              exact Or.inr (List.mem_cons_self _ _)
          · exact Or.inr (List.mem_cons_of_mem _ hx)
        · intro x hx
          exact List.mem_cons_of_mem _ (h2 x hx)

theorem takeUrl_sub :
    ∀ l : List RChar,
      (∀ c, c ∈ (takeUrl l).1 → c ∈ l) ∧ (∀ c, c ∈ (takeUrl l).2 → c ∈ l) := by
  intro l
  induction l with
  | nil => simp [takeUrl]
  | cons c cs ih =>
    rw [takeUrl]
    by_cases hu : urlChar c.ch = true
    · rw [if_pos hu]
      constructor
      · intro x hx
        rcases List.mem_cons.1 hx with hx | hx
        · subst hx; exact List.mem_cons_self _ _
        · exact List.mem_cons_of_mem _ (ih.1 x hx)
      · intro x hx
        exact List.mem_cons_of_mem _ (ih.2 x hx)
    · rw [if_neg hu]
      constructor
      · intro x hx
        cases hx
      · intro x hx
        exact hx

theorem urlAt_sub {l cap rest : List RChar} (h : urlAt l = some (cap, rest)) :
    (∀ c, c ∈ cap → c ∈ l) ∧ (∀ c, c ∈ rest → c ∈ l) := by
  have hFrom : ∀ n, urlFrom l n = some (cap, rest) →
      (∀ c, c ∈ cap → c ∈ l) ∧ (∀ c, c ∈ rest → c ∈ l) := by
    intro n hf
    rw [urlFrom] at hf
    by_cases he : (takeUrl (l.drop n)).1 = []
    · rw [if_pos he] at hf; cases hf
    · rw [if_neg he] at hf
      injection hf with hf
      injection hf with h1 h2
      subst h1; subst h2
      constructor
      · intro x hx
        rcases List.mem_append.1 hx with hx | hx
        · exact List.mem_of_mem_take hx
        · exact List.mem_of_mem_drop ((takeUrl_sub (l.drop n)).1 x hx)
      · intro x hx
        exact List.mem_of_mem_drop ((takeUrl_sub (l.drop n)).2 x hx)
  rw [urlAt] at h
  by_cases h7 : (leadsWith "http://".data l).isSome = true
  · rw [if_pos h7] at h; exact hFrom 7 h
  · rw [if_neg h7] at h
    by_cases h8 : (leadsWith "https://".data l).isSome = true
    · rw [if_pos h8] at h; exact hFrom 8 h
    · rw [if_neg h8] at h; cases h

theorem boldAt_sub {l cap rest : List RChar} (h : boldAt l = some (cap, rest)) :
    (∀ c, c ∈ cap → c ∈ l) ∧ (∀ c, c ∈ rest → c ∈ l) := by
  rw [boldAt] at h
  by_cases ht : twoStars l = true
  · rw [if_pos ht] at h
    obtain ⟨h1, h2⟩ := boldClose_sub _ _ _ _ _ h
    constructor
    · intro x hx
      rcases h1 x hx with hx | hx
      · cases hx
      · exact List.mem_of_mem_drop hx
    · intro x hx
      exact List.mem_of_mem_drop (h2 x hx)
  · rw [if_neg ht] at h; cases h

theorem italAt_sub {l cap rest : List RChar} (h : italAt l = some (cap, rest)) :
    (∀ c, c ∈ cap → c ∈ l) ∧ (∀ c, c ∈ rest → c ∈ l) := by
  rw [italAt] at h
  by_cases ht : oneStar l = true
  · rw [if_pos ht] at h
    obtain ⟨h1, h2⟩ := italClose_sub _ _ _ _ _ h
    constructor
    · intro x hx
      rcases h1 x hx with hx | hx
      · cases hx
      · exact List.mem_of_mem_drop hx
    · intro x hx
      exact List.mem_of_mem_drop (h2 x hx)
  · rw [if_neg ht] at h; cases h

theorem codeAt_sub {l cap rest : List RChar} (h : codeAt l = some (cap, rest)) :
    (∀ c, c ∈ cap → c ∈ l) ∧ (∀ c, c ∈ rest → c ∈ l) := by
  rw [codeAt] at h
  by_cases ht : oneTick l = true
  · rw [if_pos ht] at h
    obtain ⟨h1, h2⟩ := codeClose_sub _ _ _ _ _ h
    constructor
    · intro x hx
      rcases h1 x hx with hx | hx
      · cases hx
      · exact List.mem_of_mem_drop hx
    · intro x hx
      exact List.mem_of_mem_drop (h2 x hx)
  · rw [if_neg ht] at h; cases h

theorem boldPass_sub :
    ∀ (fuel : Nat) (l : List RChar) (c : RChar),
      c ∈ boldPass fuel l → c ∈ l ∨ c.gen = true := by
  intro fuel
  induction fuel with
  | zero => intro l c h; rw [boldPass] at h; exact Or.inl h
  | succ f ih =>
    intro l c h
    match l with
    | [] => rw [boldPass] at h; cases h
    | d :: ds =>
      rw [boldPass] at h
      cases hb : boldAt (d :: ds) with
      | none =>
        rw [hb] at h
        rcases List.mem_cons.1 h with h | h
        · subst h; exact Or.inl (List.mem_cons_self _ _)
        · rcases ih ds c h with h | h
          · exact Or.inl (List.mem_cons_of_mem _ h)
          · exact Or.inr h
      | some p =>
        obtain ⟨cap, rest⟩ := p
        rw [hb] at h
        rcases List.mem_append.1 h with h | h
        · rcases List.mem_append.1 h with h | h
          · rcases List.mem_append.1 h with h | h
            · exact Or.inr (mem_gens h)
            · exact Or.inl ((boldAt_sub hb).1 c h)
          · exact Or.inr (mem_gens h)
        · rcases ih rest c h with h | h
          · exact Or.inl ((boldAt_sub hb).2 c h)
          · exact Or.inr h

theorem italPass_sub :
    ∀ (fuel : Nat) (l : List RChar) (c : RChar),
      c ∈ italPass fuel l → c ∈ l ∨ c.gen = true := by
  intro fuel
  induction fuel with
  | zero => intro l c h; rw [italPass] at h; exact Or.inl h
  | succ f ih =>
    intro l c h
    match l with
    | [] => rw [italPass] at h; cases h
    | d :: ds =>
      rw [italPass] at h
      cases hb : italAt (d :: ds) with
      | none =>
        rw [hb] at h
        rcases List.mem_cons.1 h with h | h
        · subst h; exact Or.inl (List.mem_cons_self _ _)
        · rcases ih ds c h with h | h
          · exact Or.inl (List.mem_cons_of_mem _ h)
          · exact Or.inr h
      | some p =>
        obtain ⟨cap, rest⟩ := p
        rw [hb] at h
        rcases List.mem_append.1 h with h | h
        · rcases List.mem_append.1 h with h | h
          · rcases List.mem_append.1 h with h | h
            · exact Or.inr (mem_gens h)
            · exact Or.inl ((italAt_sub hb).1 c h)
          · exact Or.inr (mem_gens h)
        · rcases ih rest c h with h | h
          · exact Or.inl ((italAt_sub hb).2 c h)
          · exact Or.inr h

theorem codePass_sub :
    ∀ (fuel : Nat) (l : List RChar) (c : RChar),
      c ∈ codePass fuel l → c ∈ l ∨ c.gen = true := by
  intro fuel
  induction fuel with
  | zero => intro l c h; rw [codePass] at h; exact Or.inl h
  | succ f ih =>
    intro l c h
    match l with
    | [] => rw [codePass] at h; cases h
    | d :: ds =>
      rw [codePass] at h
      cases hb : codeAt (d :: ds) with
      | none =>
        rw [hb] at h
        rcases List.mem_cons.1 h with h | h
        · subst h; exact Or.inl (List.mem_cons_self _ _)
        · rcases ih ds c h with h | h
          · exact Or.inl (List.mem_cons_of_mem _ h)
          · exact Or.inr h
      | some p =>
        obtain ⟨cap, rest⟩ := p
        rw [hb] at h
        rcases List.mem_append.1 h with h | h
        · rcases List.mem_append.1 h with h | h
          · rcases List.mem_append.1 h with h | h
            · exact Or.inr (mem_gens h)
            · exact Or.inl ((codeAt_sub hb).1 c h)
          · exact Or.inr (mem_gens h)
        · rcases ih rest c h with h | h
          · exact Or.inl ((codeAt_sub hb).2 c h)
          · exact Or.inr h

theorem urlPass_sub :
    ∀ (fuel : Nat) (l : List RChar) (c : RChar),
      c ∈ urlPass fuel l → c ∈ l ∨ c.gen = true := by
  intro fuel
  induction fuel with
  | zero => intro l c h; rw [urlPass] at h; exact Or.inl h
  | succ f ih =>
    intro l c h
    match l with
    | [] => rw [urlPass] at h; cases h
    | d :: ds =>
      rw [urlPass] at h
      cases hb : urlAt (d :: ds) with
      | none =>
        rw [hb] at h
        rcases List.mem_cons.1 h with h | h
        · subst h; exact Or.inl (List.mem_cons_self _ _)
        · rcases ih ds c h with h | h
          · exact Or.inl (List.mem_cons_of_mem _ h)
          · exact Or.inr h
      | some p =>
        obtain ⟨cap, rest⟩ := p
        rw [hb] at h
        rcases List.mem_append.1 h with h | h
        · rcases List.mem_append.1 h with h | h
          · rcases List.mem_append.1 h with h | h
            · rcases List.mem_append.1 h with h | h
              · rcases List.mem_append.1 h with h | h
                · exact Or.inr (mem_gens h)
                · exact Or.inl ((urlAt_sub hb).1 c h)
              · exact Or.inr (mem_gens h)
            · exact Or.inl ((urlAt_sub hb).1 c h)
          · exact Or.inr (mem_gens h)
        · rcases ih rest c h with h | h
          · exact Or.inl ((urlAt_sub hb).2 c h)
          · exact Or.inr h

/-- A fragment is safe when each of its characters is either generated
by a template literal or is not an angle bracket. -/
def SafeFrag (l : List RChar) : Prop :=
  ∀ c ∈ l, c.gen = true ∨ (c.ch ≠ '<' ∧ c.ch ≠ '>')

theorem safeFrag_escape (l : List RChar) : SafeFrag (escapeHtml l) := by
  intro c h
  exact Or.inr (escapeHtml_no_angle h)

theorem applyInline_safe (l : List RChar) : SafeFrag (applyInlineFormatting l) := by
  intro c h
  simp only [applyInlineFormatting] at h
  rcases urlPass_sub _ _ _ h with h | h
  · rcases codePass_sub _ _ _ h with h | h
    · rcases italPass_sub _ _ _ h with h | h
      · rcases boldPass_sub _ _ _ h with h | h
        · exact Or.inr (escapeHtml_no_angle h)
        · exact Or.inl h
      · exact Or.inl h
    · exact Or.inl h
  · exact Or.inl h

/-! ### Safety of the block pass -/

theorem safeFrag_nil : SafeFrag [] := by
  intro c h
  cases h

theorem safeFrag_append {a b : List RChar} (ha : SafeFrag a) (hb : SafeFrag b) :
    SafeFrag (a ++ b) := by
  intro c h
  rcases List.mem_append.1 h with h | h
  · exact ha c h
  · exact hb c h

theorem safeFrag_gens (s : String) : SafeFrag (gens s) := by
  intro c h
  exact Or.inl (mem_gens h)

theorem safeFrag_flatten {L : List (List RChar)} (h : ∀ f ∈ L, SafeFrag f) :
    SafeFrag L.flatten := by
  intro c hc
  rcases List.mem_flatten.1 hc with ⟨f, hf, hcf⟩
  exact h f hf c hcf

/-- A state is safe when its accumulated markup and every buffered list
item are safe fragments (the raw code buffer is excluded: its lines are
escaped on flush). -/
def SafeSt (st : FmtState) : Prop :=
  SafeFrag st.html ∧ ∀ f ∈ st.listBuffer, SafeFrag f

theorem flushList_safe {st : FmtState} (h : SafeSt st) : SafeSt (flushList st) := by
  obtain ⟨hh, hl⟩ := h
  rw [flushList]
  by_cases he : st.listBuffer = []
  · rw [if_pos he]; exact ⟨hh, hl⟩
  · rw [if_neg he]
    refine ⟨?_, ?_⟩
    · exact safeFrag_append (safeFrag_append (safeFrag_append hh (safeFrag_gens _))
        (safeFrag_flatten hl)) (safeFrag_gens _)
    · intro f hf
      cases hf

theorem flushCode_safe {st : FmtState} (h : SafeSt st) : SafeSt (flushCode st) := by
  obtain ⟨hh, hl⟩ := h
  rw [flushCode]
  by_cases he : st.codeBuffer = []
  · rw [if_pos he]; exact ⟨hh, hl⟩
  · rw [if_neg he]
    exact ⟨safeFrag_append (safeFrag_append (safeFrag_append hh (safeFrag_gens _))
      (safeFrag_escape _)) (safeFrag_gens _), hl⟩

theorem processLine_safe {st : FmtState} (h : SafeSt st) (raw : List RChar) :
    SafeSt (processLine st raw) := by
  rw [processLine]
  by_cases h1 : fence (trimEndR raw) = true
  · rw [if_pos h1]
    by_cases h2 : st.inCodeBlock
    · rw [if_pos h2]
      exact flushCode_safe h
    · rw [if_neg h2]
      exact flushList_safe h
  · rw [if_neg h1]
    by_cases h2 : st.inCodeBlock
    · rw [if_pos h2]
      exact ⟨h.1, h.2⟩
    · rw [if_neg h2]
      by_cases h3 : isBlank (trimEndR raw) = true
      · rw [if_pos h3]
        have hf := flushList_safe h
        exact ⟨safeFrag_append hf.1 (safeFrag_gens _), hf.2⟩
      · rw [if_neg h3]
        cases hm : headingMatch (trimEndR raw) with
        | some p =>
          obtain ⟨r, content⟩ := p
          have hf := flushList_safe h
          exact ⟨safeFrag_append (safeFrag_append (safeFrag_append hf.1
            (safeFrag_gens _)) (applyInline_safe _)) (safeFrag_gens _), hf.2⟩
        | none =>
          cases hb : bulletMatch (trimEndR raw) with
          | some content =>
            by_cases h4 : st.listType ≠ some ListKind.ul
            · rw [if_pos h4]
              have hf := flushList_safe h
              refine ⟨hf.1, ?_⟩
              intro f hfm
              rcases List.mem_append.1 hfm with hfm | hfm
              · exact hf.2 f hfm
              · rw [List.mem_singleton] at hfm; subst hfm
                exact safeFrag_append (safeFrag_append (safeFrag_gens _)
                  (applyInline_safe _)) (safeFrag_gens _)
            · rw [if_neg h4]
              refine ⟨h.1, ?_⟩
              intro f hfm
              rcases List.mem_append.1 hfm with hfm | hfm
              · exact h.2 f hfm
              · rw [List.mem_singleton] at hfm; subst hfm
                exact safeFrag_append (safeFrag_append (safeFrag_gens _)
                  (applyInline_safe _)) (safeFrag_gens _)
          | none =>
            cases ho : orderedMatch (trimEndR raw) with
            | some content =>
              by_cases h4 : st.listType ≠ some ListKind.ol
              · rw [if_pos h4]
                have hf := flushList_safe h
                refine ⟨hf.1, ?_⟩
                intro f hfm
                rcases List.mem_append.1 hfm with hfm | hfm
                · exact hf.2 f hfm
                · rw [List.mem_singleton] at hfm; subst hfm
                  exact safeFrag_append (safeFrag_append (safeFrag_gens _)
                    (applyInline_safe _)) (safeFrag_gens _)
              · rw [if_neg h4]
                refine ⟨h.1, ?_⟩
                intro f hfm
                rcases List.mem_append.1 hfm with hfm | hfm
                · exact h.2 f hfm
                · rw [List.mem_singleton] at hfm; subst hfm
                  exact safeFrag_append (safeFrag_append (safeFrag_gens _)
                    (applyInline_safe _)) (safeFrag_gens _)
            | none =>
              have hf := flushList_safe h
              exact ⟨safeFrag_append (safeFrag_append (safeFrag_append hf.1
                (safeFrag_gens _)) (applyInline_safe _)) (safeFrag_gens _), hf.2⟩

theorem foldl_safe :
    ∀ (ls : List (List RChar)) (st : FmtState), SafeSt st →
      SafeSt (ls.foldl processLine st) := by
  intro ls
  induction ls with
  | nil => intro st h; exact h
  | cons l ls ih =>
    intro st h
    exact ih _ (processLine_safe h l)

theorem startState_safe : SafeSt startState := by
  constructor
  · intro c h; cases h
  · intro f hf; cases hf

theorem formatR_safe (text : List RChar) : SafeFrag (formatR text) := by
  rw [formatR]
  by_cases he :
      (flushCode (flushList ((splitOnNl text).foldl processLine startState))).html = []
  · rw [if_pos he]
    exact applyInline_safe text
  · rw [if_neg he]
    exact (flushCode_safe (flushList_safe (foldl_safe _ _ startState_safe))).1

/-! ### Projections of the flush operations and the buffer invariant -/

theorem flushList_listBuffer (st : FmtState) : (flushList st).listBuffer = [] := by
  rw [flushList]
  split
  · assumption
  · rfl

theorem flushList_inCodeBlock (st : FmtState) :
    (flushList st).inCodeBlock = st.inCodeBlock := by
  rw [flushList]
  split <;> rfl

theorem flushList_codeBuffer (st : FmtState) :
    (flushList st).codeBuffer = st.codeBuffer := by
  rw [flushList]
  split <;> rfl

theorem flushCode_codeBuffer (st : FmtState) : (flushCode st).codeBuffer = [] := by
  rw [flushCode]
  split
  · assumption
  · rfl

theorem flushCode_inCodeBlock (st : FmtState) :
    (flushCode st).inCodeBlock = st.inCodeBlock := by
  rw [flushCode]
  split <;> rfl

theorem flushCode_listBuffer (st : FmtState) :
    (flushCode st).listBuffer = st.listBuffer := by
  rw [flushCode]
  split <;> rfl

/-- The buffer-exclusivity invariant of the line scan: while inside a
code region the list buffer is empty, and outside a code region the code
buffer is empty. -/
def BufInv (st : FmtState) : Prop :=
  (st.inCodeBlock = true → st.listBuffer = []) ∧
  (st.inCodeBlock = false → st.codeBuffer = [])

theorem bufInv_start : BufInv startState := by
  constructor
  · intro _; rfl
  · intro _; rfl

theorem bufInv_processLine {st : FmtState} (h : BufInv st) (raw : List RChar) :
    BufInv (processLine st raw) := by
  rw [processLine]
  by_cases h1 : fence (trimEndR raw) = true
  · rw [if_pos h1]
    by_cases h2 : st.inCodeBlock
    · rw [if_pos h2]
      constructor
      · intro hc; cases hc
      · intro _; exact flushCode_codeBuffer st
    · rw [if_neg h2]
      constructor
      · intro _; exact flushList_listBuffer st
      · intro hc; cases hc
  · rw [if_neg h1]
    by_cases h2 : st.inCodeBlock
    · rw [if_pos h2]
      constructor
      · intro _
        exact h.1 (by revert h2; cases st.inCodeBlock <;> simp)
      · intro hc
        rw [hc] at h2; cases h2
    · rw [if_neg h2]
      have hcb : st.codeBuffer = [] := by
        apply h.2
        revert h2; cases st.inCodeBlock <;> simp
      by_cases h3 : isBlank (trimEndR raw) = true
      · rw [if_pos h3]
        constructor
        · intro hc
          rw [flushList_inCodeBlock] at hc
          revert h2; rw [hc]; intro h2; cases h2 rfl
        · intro _
          rw [flushList_codeBuffer]; exact hcb
      · rw [if_neg h3]
        cases hm : headingMatch (trimEndR raw) with
        | some p =>
          obtain ⟨r, content⟩ := p
          constructor
          · intro hc
            rw [flushList_inCodeBlock] at hc
            revert h2; rw [hc]; intro h2; cases h2 rfl
          · intro _
            rw [flushList_codeBuffer]; exact hcb
        | none =>
          cases hb : bulletMatch (trimEndR raw) with
          | some content =>
            by_cases h4 : st.listType ≠ some ListKind.ul
            · rw [if_pos h4]
              constructor
              · intro hc
                rw [flushList_inCodeBlock] at hc
                revert h2; rw [hc]; intro h2; cases h2 rfl
              · intro _
                rw [flushList_codeBuffer]; exact hcb
            · rw [if_neg h4]
              constructor
              · intro hc
                revert h2; rw [hc]; intro h2; cases h2 rfl
              · intro _; exact hcb
          | none =>
            cases ho : orderedMatch (trimEndR raw) with
            | some content =>
              by_cases h4 : st.listType ≠ some ListKind.ol
              · rw [if_pos h4]
                constructor
                · intro hc
                  rw [flushList_inCodeBlock] at hc
                  revert h2; rw [hc]; intro h2; cases h2 rfl
                · intro _
                  rw [flushList_codeBuffer]; exact hcb
              · rw [if_neg h4]
                constructor
                · intro hc
                  revert h2; rw [hc]; intro h2; cases h2 rfl
                · intro _; exact hcb
            | none =>
              constructor
              · intro hc
                rw [flushList_inCodeBlock] at hc
                revert h2; rw [hc]; intro h2; cases h2 rfl
              · intro _
                rw [flushList_codeBuffer]; exact hcb

theorem bufInv_foldl :
    ∀ (ls : List (List RChar)) (st : FmtState), BufInv st →
      BufInv (ls.foldl processLine st) := by
  intro ls
  induction ls with
  | nil => intro st h; exact h
  | cons l ls ih =>
    intro st h
    exact ih _ (bufInv_processLine h l)

/-! ### Behaviour of a line step on fence and non-fence lines -/

theorem processLine_of_fence {st : FmtState} {raw : List RChar}
    (h : fence (trimEndR raw) = true) :
    processLine st raw =
      if st.inCodeBlock then { flushCode st with inCodeBlock := false }
      else { flushList st with inCodeBlock := true } := by
  rw [processLine, if_pos h]

theorem processLine_inCode_of_not_fence {st : FmtState} {raw : List RChar}
    (h : fence (trimEndR raw) = false) :
    (processLine st raw).inCodeBlock = st.inCodeBlock := by
  rw [processLine]
  rw [if_neg (by rw [h]; intro hc; cases hc)]
  by_cases h2 : st.inCodeBlock
  · rw [if_pos h2]
  · rw [if_neg h2]
    by_cases h3 : isBlank (trimEndR raw) = true
    · rw [if_pos h3]
      exact flushList_inCodeBlock st
    · rw [if_neg h3]
      cases hm : headingMatch (trimEndR raw) with
      | some p =>
        obtain ⟨r, content⟩ := p
        exact flushList_inCodeBlock st
      | none =>
        cases hb : bulletMatch (trimEndR raw) with
        | some content =>
          by_cases h4 : st.listType ≠ some ListKind.ul
          · rw [if_pos h4]
            exact flushList_inCodeBlock st
          · rw [if_neg h4]
        | none =>
          cases ho : orderedMatch (trimEndR raw) with
          | some content =>
            by_cases h4 : st.listType ≠ some ListKind.ol
            · rw [if_pos h4]
              exact flushList_inCodeBlock st
            · rw [if_neg h4]
          | none =>
            exact flushList_inCodeBlock st

/-! ### Which rule fires on a line is determined by its head characters -/

theorem fence_false_of_head {c : RChar} {cs : List RChar} (h : c.ch ≠ '\x60') :
    fence (c :: cs) = false := by
  match cs with
  | [] => rfl
  | [b] => rfl
  | b :: d :: ds =>
    rw [fence]
    rw [decide_eq_false h]
    rfl

theorem isBlank_false_of_head {c : RChar} {cs : List RChar} (h : jsWhite c.ch = false) :
    isBlank (c :: cs) = false := by
  rw [isBlank, List.all_cons, h]
  rfl

theorem headingMatch_none_of_head {c : RChar} {cs : List RChar} (h : c.ch ≠ '#') :
    headingMatch (c :: cs) = none := by
  rw [headingMatch]
  have hc : countLeading (fun x => x = '#') (c :: cs) = 0 := by
    rw [countLeading, if_neg]
    simp [h]
  rw [hc]
  rfl

theorem bulletMatch_none_of_head {c : RChar} {cs : List RChar}
    (h : isBulletChar c.ch = false) : bulletMatch (c :: cs) = none := by
  match cs with
  | [] => rfl
  | d :: rest =>
    rw [bulletMatch, h]
    rfl

theorem headingMatch_shape {l : List RChar} {r : Nat} {content : List RChar}
    (h : headingMatch l = some (r, content)) :
    ∃ c cs, l = c :: cs ∧ c.ch = '#' := by
  match l with
  | [] => rw [headingMatch] at h; cases h
  | c :: cs =>
    by_cases hc : c.ch = '#'
    · exact ⟨c, cs, rfl, hc⟩
    · rw [headingMatch_none_of_head hc] at h
      cases h

theorem bulletMatch_shape {l content : List RChar} (h : bulletMatch l = some content) :
    ∃ c cs, l = c :: cs ∧ isBulletChar c.ch = true := by
  match l with
  | [] => simp [bulletMatch] at h
  | [c] => simp [bulletMatch] at h
  | c :: d :: rest =>
    by_cases hc : isBulletChar c.ch = true
    · exact ⟨c, d :: rest, rfl, hc⟩
    · rw [bulletMatch_none_of_head (Bool.eq_false_iff.2 hc)] at h
      cases h

theorem bulletChar_not_tick {x : Char} (h : isBulletChar x = true) : x ≠ '\x60' := by
  rw [isBulletChar] at h
  intro he
  rw [he] at h
  cases h

theorem bulletChar_not_white {x : Char} (h : isBulletChar x = true) :
    jsWhite x = false := by
  rw [isBulletChar] at h
  rcases Bool.or_eq_true_iff.1 h with h | h
  · rcases Bool.or_eq_true_iff.1 h with h | h
    · rcases Bool.or_eq_true_iff.1 h with h | h
      · rcases Bool.or_eq_true_iff.1 h with h | h
        · rw [of_decide_eq_true h]; rfl
        · rw [of_decide_eq_true h]; rfl
      · rw [of_decide_eq_true h]; rfl
    · rw [of_decide_eq_true h]; rfl
  · rw [of_decide_eq_true h]; rfl

theorem bulletChar_not_hash {x : Char} (h : isBulletChar x = true) : x ≠ '#' := by
  intro he
  rw [he] at h
  cases h

/-- On a heading line (outside a code region) the step flushes any open
list and appends the heading markup at level `min (hashes + 2) 5`. -/
theorem processLine_heading {st : FmtState} {raw : List RChar} {r : Nat}
    {content : List RChar} (hc : st.inCodeBlock = false)
    (hm : headingMatch (trimEndR raw) = some (r, content)) :
    processLine st raw =
      { flushList st with
        html := (flushList st).html ++
          gens ("<h" ++ toString (min (r + 2) 5) ++ ">") ++
          applyInlineFormatting content ++
          gens ("</h" ++ toString (min (r + 2) 5) ++ ">") } := by
  obtain ⟨c, cs, hl, hch⟩ := headingMatch_shape hm
  rw [hl] at hm
  have hfence : fence (c :: cs) = false := by
    apply fence_false_of_head
    rw [hch]
    decide
  have hblank : isBlank (c :: cs) = false := by
    apply isBlank_false_of_head
    rw [hch]
    rfl
  rw [processLine, hl]
  rw [if_neg (by rw [hfence]; intro hcc; cases hcc)]
  rw [if_neg (by rw [hc]; intro hcc; cases hcc)]
  rw [if_neg (by rw [hblank]; intro hcc; cases hcc)]
  rw [hm]

/-- On an unordered bullet line, while the open list already has kind
`ul`, the step only appends the new item to the list buffer. -/
theorem processLine_bullet_same {st : FmtState} {raw content : List RChar}
    (hc : st.inCodeBlock = false) (hty : st.listType = some ListKind.ul)
    (hb : bulletMatch (trimEndR raw) = some content) :
    processLine st raw =
      { st with listBuffer := st.listBuffer ++
          [gens "<li>" ++ applyInlineFormatting content ++ gens "</li>"] } := by
  obtain ⟨c, cs, hl, hch⟩ := bulletMatch_shape hb
  rw [hl] at hb
  have hfence : fence (c :: cs) = false :=
    fence_false_of_head (bulletChar_not_tick hch)
  have hblank : isBlank (c :: cs) = false :=
    isBlank_false_of_head (bulletChar_not_white hch)
  have hhm : headingMatch (c :: cs) = none :=
    headingMatch_none_of_head (bulletChar_not_hash hch)
  rw [processLine, hl]
  rw [if_neg (by rw [hfence]; intro hcc; cases hcc)]
  rw [if_neg (by rw [hc]; intro hcc; cases hcc)]
  rw [if_neg (by rw [hblank]; intro hcc; cases hcc)]
  rw [hhm, hb]
  rw [if_neg (fun hne => hne hty)]

/-! ### The claims -/

/-- C1: Injection safety.  For every input string, every character of
the renderer's output that is not generated by a template literal — i.e.
every character originating from the input text — is neither `<` nor
`>`; so all angle brackets in the output belong to generated tags.  The
second conjunct ties the provenance-tracking renderer to the plain
string renderer. -/
theorem claim_C1_injection_safety (s : String) :
    (∀ c ∈ formatR (inputChars s), c.gen = false → c.ch ≠ '<' ∧ c.ch ≠ '>') ∧
    formatMessageText s = eraseProv (formatR (inputChars s)) := by
  refine ⟨fun c hc hg => ?_, rfl⟩
  rcases formatR_safe (inputChars s) c hc with h | h
  · rw [hg] at h; cases h
  · exact h

theorem claim_C1_witness :
    (RChar.mk 'b' false).ch ≠ '<' ∧ (RChar.mk 'b' false).ch ≠ '>' :=
  (claim_C1_injection_safety "<b>").1 ⟨'b', false⟩ (by decide) (by decide)

/-- C2 counterexample: the claim "a line toggles the code region iff its
trimmed content is exactly three backticks" is false on the code in both
directions: the line ```` ```x ```` toggles the region although its trim
is not three backticks, and the line `"   ```"` (leading spaces) does
not toggle although its trim is exactly three backticks — the source
tests `startsWith` on the merely end-trimmed line. -/
theorem claim_C2_counterexample :
    ((processLine startState (inputChars "```x")).inCodeBlock = true ∧
      ¬ trimR (inputChars "```x") = inputChars "```") ∧
    ((processLine startState (inputChars "   ```")).inCodeBlock = false ∧
      trimR (inputChars "   ```") = inputChars "```") := by
  decide

/-- C2 (amended): a line toggles the code region iff its content, after
removal of trailing whitespace only, starts with three backticks; on
such a line, while in a code block the code buffer is flushed and the
state returns to normal, otherwise any open list is flushed and the code
region is entered — and the fence line contributes nothing else. -/
theorem claim_C2_fence_toggle (st : FmtState) (raw : List RChar) :
    ((processLine st raw).inCodeBlock = !st.inCodeBlock ↔
      fence (trimEndR raw) = true) ∧
    (fence (trimEndR raw) = true →
      processLine st raw =
        if st.inCodeBlock then { flushCode st with inCodeBlock := false }
        else { flushList st with inCodeBlock := true }) := by
  constructor
  · constructor
    · intro h
      by_cases hf : fence (trimEndR raw) = true
      · exact hf
      · exfalso
        rw [processLine_inCode_of_not_fence (Bool.eq_false_iff.2 hf)] at h
        cases hcb : st.inCodeBlock <;> rw [hcb] at h <;> cases h
    · intro hf
      rw [processLine_of_fence hf]
      cases hcb : st.inCodeBlock <;> rfl
  · exact processLine_of_fence

theorem claim_C2_witness :
    processLine startState (inputChars "```") =
      if startState.inCodeBlock then { flushCode startState with inCodeBlock := false }
      else { flushList startState with inCodeBlock := true } :=
  (claim_C2_fence_toggle startState (inputChars "```")).2 (by decide)

/-- C3 counterexample: the claim "render of the empty string returns the
inline-formatted escaped original via the fallback path, i.e. the empty
string" is false: the renderer returns `<br>`, because JavaScript's
`"".split('\n')` yields one empty line, which fires the blank-line rule
and makes the block output non-empty. -/
theorem claim_C3_counterexample :
    formatMessageText "" = "<br>" ∧
    ¬ formatMessageText "" = applyInlineFormattingS (escapeHtmlS "") := by
  decide

/-- C3 (amended): for the empty string the line split yields a single
empty line, the blank-line rule fires, and the renderer returns `<br>`;
the block output is the single generated `<br>` fragment, so the
empty-output fallback path is not taken. -/
theorem claim_C3_empty_line_break :
    formatMessageText "" = "<br>" ∧
    (flushCode (flushList ((splitOnNl (inputChars "")).foldl processLine
      startState))).html = gens "<br>" := by
  decide

/-- C4: Escaper contract.  The three sequential global substitutions
(`&` first, then `<`, then `>`) act exactly as the one-pass per-character
substitution `escapeCharSpec`: every `&` becomes its entity once, every
`<` and `>` become their entities, no other character is transformed,
the function is total by construction, and no entity produced by the `&`
substitution is double-encoded (witnessed by the concrete conjuncts). -/
theorem claim_C4_escaper_contract :
    (∀ l : List RChar, escapeHtml l = expandWith escapeCharSpec l) ∧
    escapeHtmlS "&" = "&amp;" ∧ escapeHtmlS "&<>" = "&amp;&lt;&gt;" :=
  ⟨escapeHtml_eq, by decide, by decide⟩

/-- C5: Inline formatting unit behaviour on already-escaped inputs:
bold, italic, inline code and autolink produce the expected markup, the
hyperlink targets a new browsing context (`target="_blank"`), and bold
matching is shortest-span (final conjunct). -/
theorem claim_C5_inline_units :
    applyInlineFormattingS "**bold**" = "<strong>bold</strong>" ∧
    applyInlineFormattingS "*em*" = "<em>em</em>" ∧
    applyInlineFormattingS "`code`" = "<code>code</code>" ∧
    applyInlineFormattingS "http://x.com" =
      "<a href=\"http://x.com\" target=\"_blank\">http://x.com</a>" ∧
    applyInlineFormattingS "**a** and **b**" =
      "<strong>a</strong> and <strong>b</strong>" :=
  ⟨by decide, by decide, by decide, by decide, by decide⟩

/-- C6: Heading rule.  Outside a code block, a line matching one to four
leading hashes followed by whitespace flushes any open list and emits a
heading of level `min (hashCount + 2) 5` whose content went through the
inline formatter; concretely `# Title` yields level 3 and `#### Title`
level 5. -/
theorem claim_C6_heading_rule :
    (∀ (st : FmtState) (raw : List RChar) (r : Nat) (content : List RChar),
      st.inCodeBlock = false →
      headingMatch (trimEndR raw) = some (r, content) →
      processLine st raw =
        { flushList st with
          html := (flushList st).html ++
            gens ("<h" ++ toString (min (r + 2) 5) ++ ">") ++
            applyInlineFormatting content ++
            gens ("</h" ++ toString (min (r + 2) 5) ++ ">") }) ∧
    formatMessageText "# Title" = "<h3>Title</h3>" ∧
    formatMessageText "#### Title" = "<h5>Title</h5>" :=
  ⟨fun _ _ _ _ hc hm => processLine_heading hc hm, by decide, by decide⟩

theorem claim_C6_witness :
    processLine startState (inputChars "# T") =
      { flushList startState with
        html := (flushList startState).html ++
          gens ("<h" ++ toString (min (1 + 2) 5) ++ ">") ++
          applyInlineFormatting (inputChars "T") ++
          gens ("</h" ++ toString (min (1 + 2) 5) ++ ">") } :=
  claim_C6_heading_rule.1 startState (inputChars "# T") 1 (inputChars "T")
    (by decide) (by decide)

/-- C7: List grouping and kind-change flush.  A bullet line arriving
while an unordered list is already open only appends its item to the
open buffer (grouping), and the concrete conjuncts show that contiguous
same-kind lines produce one list block while a kind change forces a
flush into two separate blocks. -/
theorem claim_C7_list_grouping :
    (∀ (st : FmtState) (raw content : List RChar),
      st.inCodeBlock = false → st.listType = some ListKind.ul →
      bulletMatch (trimEndR raw) = some content →
      processLine st raw =
        { st with listBuffer := st.listBuffer ++
            [gens "<li>" ++ applyInlineFormatting content ++ gens "</li>"] }) ∧
    formatMessageText "- a\n- b" = "<ul><li>a</li><li>b</li></ul>" ∧
    formatMessageText "- a\n1. b" = "<ul><li>a</li></ul><ol><li>b</li></ol>" :=
  ⟨fun _ _ _ hc hty hb => processLine_bullet_same hc hty hb, by decide, by decide⟩

theorem claim_C7_witness :
    processLine (processLine startState (inputChars "- a")) (inputChars "- b") =
      { processLine startState (inputChars "- a") with
        listBuffer := (processLine startState (inputChars "- a")).listBuffer ++
          [gens "<li>" ++ applyInlineFormatting (inputChars "b") ++ gens "</li>"] } :=
  claim_C7_list_grouping.1 (processLine startState (inputChars "- a"))
    (inputChars "- b") (inputChars "b") (by decide) (by decide) (by decide)

/-- C8: Unterminated structures are auto-closed at end of input: an open
code fence is flushed as one code block (lines escaped once and joined
by a line break), an open list is flushed as one list block, and after
the final flush pair both buffers are always empty; the renderer is a
total function by construction. -/
theorem claim_C8_auto_close :
    formatMessageText "```\na<b\nline2" = "<pre><code>a&lt;b\nline2</code></pre>" ∧
    formatMessageText "- a" = "<ul><li>a</li></ul>" ∧
    ∀ st : FmtState, (flushCode (flushList st)).listBuffer = [] ∧
      (flushCode (flushList st)).codeBuffer = [] := by
  refine ⟨by decide, by decide, fun st => ⟨?_, flushCode_codeBuffer _⟩⟩
  rw [flushCode_listBuffer, flushList_listBuffer]

/-- C9: Buffer exclusivity.  After scanning any sequence of lines from
the initial state, the list buffer is empty whenever the scan is inside
a code region, the code buffer is empty whenever it is not, and hence
the two buffers are never simultaneously non-empty. -/
theorem claim_C9_buffer_exclusivity (ls : List (List RChar)) :
    ((ls.foldl processLine startState).inCodeBlock = true →
      (ls.foldl processLine startState).listBuffer = []) ∧
    ((ls.foldl processLine startState).inCodeBlock = false →
      (ls.foldl processLine startState).codeBuffer = []) ∧
    ¬((ls.foldl processLine startState).listBuffer ≠ [] ∧
      (ls.foldl processLine startState).codeBuffer ≠ []) := by
  have h := bufInv_foldl ls startState bufInv_start
  refine ⟨h.1, h.2, ?_⟩
  rintro ⟨hl, hc⟩
  cases hcb : (ls.foldl processLine startState).inCodeBlock
  · exact hc (h.2 hcb)
  · exact hl (h.1 hcb)

theorem claim_C9_witness :
    (List.foldl processLine startState [inputChars "```", inputChars "x"]).listBuffer
      = [] :=
  (claim_C9_buffer_exclusivity [inputChars "```", inputChars "x"]).1 (by decide)

/-- C10: Because the autolink substitution runs after the inline-code
substitution over the same string, a URL between backticks is first
wrapped in a code tag and then hyperlinked inside it. -/
theorem claim_C10_autolink_in_code :
    applyInlineFormattingS "`http://x.com`" =
      "<code><a href=\"http://x.com\" target=\"_blank\">http://x.com</a></code>" := by
  decide
